import Mathlib

/-!
Verification development for the quantum-assisted AFQMC module
(afqmc/quantum_afqmc_pennylane.py).

The Python module is shallowly embedded: real floating-point scalars are
modelled by real numbers, complex values by Mathlib complex numbers, numpy
matrices by Mathlib matrices, and Python lists by Lean lists.  External
collaborators that the module merely calls (the scipy QR factorization, the
openfermion Givens decomposition, the quantum device, and the classical
afqmc module) are modelled as oracle parameters; where a theorem needs a
fact about such an oracle, that fact appears as an explicit hypothesis
stating the collaborator's documented contract.
-/

namespace AFQMC

/-- Rounding of a real number to the nearest integer with ties to even,
as performed by numpy round. -/
noncomputable def npRound (x : ℝ) : ℤ :=
  if Int.fract x = 1 / 2 then 2 * round (x / 2) else round x

/-- Rounding to k decimal places, as numpy round with decimals = k. -/
noncomputable def roundTo (k : ℕ) (x : ℝ) : ℝ :=
  (npRound (x * 10 ^ k) : ℝ) / 10 ^ k

/-- Componentwise rounding of a complex number to 7 decimal places
(numpy round applied to a complex array rounds real and imaginary parts). -/
noncomputable def roundC7 (z : ℂ) : ℂ :=
  ⟨roundTo 7 z.re, roundTo 7 z.im⟩

theorem npRound_intCast (k : ℤ) : npRound (k : ℝ) = k := by
  rw [npRound, Int.fract_intCast, if_neg (by norm_num : (0 : ℝ) ≠ 1 / 2),
    round_intCast]

theorem npRound_zero : npRound 0 = 0 := by
  simpa using npRound_intCast 0

theorem roundTo_zero (k : ℕ) : roundTo k 0 = 0 := by
  rw [roundTo, zero_mul, npRound_zero]
  simp

theorem roundC7_zero : roundC7 0 = 0 := by
  rw [roundC7]
  simp [roundTo_zero, Complex.ext_iff]

/-- The numpy sign of a complex number (legacy behavior): the sign of the
real part, or the sign of the imaginary part when the real part is zero.
The result is always a real number. -/
noncomputable def npSign (z : ℂ) : ℝ :=
  if 0 < z.re then 1
  else if z.re < 0 then -1
  else if 0 < z.im then 1
  else if z.im < 0 then -1
  else 0

/-- The diagonal sign matrix np.diag(np.sign(np.diag(R))) built inside
reortho. -/
noncomputable def signDiag {n : ℕ} (R : Matrix (Fin n) (Fin n) ℂ) :
    Matrix (Fin n) (Fin n) ℂ :=
  Matrix.diagonal fun i => ((npSign (R i i) : ℝ) : ℂ)

/-- The sign-correction step of reortho.  The scipy economy QR
factorization of the input matrix A is an external collaborator; reortho
receives its two factors Q and R and returns Q.dot(signs) together with
det(signs.dot(R)), exactly as the source does. -/
noncomputable def reortho {m n : ℕ} (Q : Matrix (Fin m) (Fin n) ℂ)
    (R : Matrix (Fin n) (Fin n) ℂ) : Matrix (Fin m) (Fin n) ℂ × ℂ :=
  (Q * signDiag R, (signDiag R * R).det)

theorem npSign_mul_self {z : ℂ} (hz : z ≠ 0) (him : z.im = 0) :
    npSign z * npSign z = 1 := by
  have hre : z.re ≠ 0 := by
    intro h
    exact hz (Complex.ext h him)
  rcases lt_or_gt_of_ne hre with h | h
  · rw [npSign, if_neg (by linarith), if_pos h]
    norm_num
  · rw [npSign, if_pos h]
    norm_num

theorem npSign_smul_nonneg {z : ℂ} (hz : z ≠ 0) (him : z.im = 0) :
    0 ≤ (((npSign z : ℝ) : ℂ) * z).re ∧ (((npSign z : ℝ) : ℂ) * z).im = 0 := by
  have hre : z.re ≠ 0 := by
    intro h
    exact hz (Complex.ext h him)
  constructor
  · rw [Complex.mul_re, Complex.ofReal_re, Complex.ofReal_im, zero_mul,
      sub_zero]
    rcases lt_or_gt_of_ne hre with h | h
    · rw [npSign, if_neg (by linarith), if_pos h]
      nlinarith
    · rw [npSign, if_pos h]
      nlinarith
  · rw [Complex.mul_im, Complex.ofReal_re, Complex.ofReal_im, zero_mul,
      him, mul_zero, zero_add]

theorem signDiag_conjTranspose {n : ℕ} (R : Matrix (Fin n) (Fin n) ℂ) :
    (signDiag R).conjTranspose = signDiag R := by
  rw [signDiag, Matrix.diagonal_conjTranspose]
  have h : (star fun i => ((npSign (R i i) : ℝ) : ℂ)) =
      fun i => ((npSign (R i i) : ℝ) : ℂ) := by
    funext i
    simp [Complex.conj_ofReal]
  rw [h]

theorem signDiag_mul_self {n : ℕ} (R : Matrix (Fin n) (Fin n) ℂ)
    (hnz : ∀ i, R i i ≠ 0) (him : ∀ i, (R i i).im = 0) :
    signDiag R * signDiag R = 1 := by
  rw [signDiag, Matrix.diagonal_mul_diagonal]
  have h : ∀ i, ((npSign (R i i) : ℝ) : ℂ) * ((npSign (R i i) : ℝ) : ℂ) = 1 :=
    fun i => by
      rw [← Complex.ofReal_mul, npSign_mul_self (hnz i) (him i),
        Complex.ofReal_one]
  simp only [h, Matrix.diagonal_one]

/-- The per-checkpoint weighted sum, sum over i of weights[i] times
values[i], as accumulated in the quantum branch of qAFQMC. -/
noncomputable def wsumC (ws : List ℝ) (zs : List ℂ) : ℂ :=
  ((ws.zip zs).map fun p => (p.1 : ℂ) * p.2).sum

/-- The checkpoint quantum-energy estimate of the Population Controller:
the real part of the ratio of the weighted sum of per-walker quantum
energies to the weighted sum of per-walker overlap ratios. -/
noncomputable def qEnergyCheckpoint (ws : List ℝ) (qEs ratios : List ℂ) : ℝ :=
  (wsumC ws qEs / wsumC ws ratios).re

theorem wsumC_map_mul (c : ℝ) :
    ∀ (ws : List ℝ) (zs : List ℂ),
      wsumC (ws.map fun w => c * w) zs = (c : ℂ) * wsumC ws zs := by
  intro ws
  induction ws with
  | nil => intro zs; simp [wsumC]
  | cons w ws ih =>
    intro zs
    cases zs with
    | nil => simp [wsumC]
    | cons z zs =>
      have h := ih zs
      simp only [wsumC, List.map_cons, List.zip_cons_cons, List.sum_cons] at h ⊢
      rw [h]
      push_cast
      ring

/-- A one-by-one test matrix with the single entry minus two, used to
exercise the sign correction of reortho on a negative diagonal. -/
def Rneg : Matrix (Fin 1) (Fin 1) ℂ := Matrix.of fun _ _ => (-2 : ℂ)

theorem Rneg_apply (i j : Fin 1) : Rneg i j = -2 := rfl

/-- Claim C4: for every matrix A with at least as many rows as columns and
full column rank, reortho returns (Q, detR) such that Q has orthonormal
columns, the sign-adjusted triangular factor has a non-negative (real)
diagonal, Q times the sign-adjusted factor reconstructs A, and detR is the
determinant of the sign-adjusted factor.  The scipy economy QR
factorization is the external oracle; its contract (A = Q R with Q having
orthonormal columns and R upper triangular with real nonzero diagonal, the
LAPACK geqrf convention on a full-column-rank input) is taken as
hypotheses. -/
theorem C4_reortho_sign_correction {m n : ℕ}
    (A Q : Matrix (Fin m) (Fin n) ℂ) (R : Matrix (Fin n) (Fin n) ℂ)
    (hmn : n ≤ m) (hQR : A = Q * R)
    (horth : Q.conjTranspose * Q = 1)
    (htri : ∀ i j : Fin n, (j : ℕ) < (i : ℕ) → R i j = 0)
    (hre : ∀ i, (R i i).im = 0) (hnz : ∀ i, R i i ≠ 0) :
    (reortho Q R).1 = Q * signDiag R ∧
    ((reortho Q R).1).conjTranspose * (reortho Q R).1 = 1 ∧
    (∀ i, 0 ≤ ((signDiag R * R) i i).re ∧ ((signDiag R * R) i i).im = 0) ∧
    (reortho Q R).1 * (signDiag R * R) = A ∧
    (reortho Q R).2 = (signDiag R * R).det := by
  refine ⟨rfl, ?_, ?_, ?_, rfl⟩
  · show (Q * signDiag R).conjTranspose * (Q * signDiag R) = 1
    rw [Matrix.conjTranspose_mul, Matrix.mul_assoc,
      ← Matrix.mul_assoc Q.conjTranspose Q (signDiag R), horth,
      Matrix.one_mul, signDiag_conjTranspose]
    exact signDiag_mul_self R hnz hre
  · intro i
    have h : (signDiag R * R) i i = ((npSign (R i i) : ℝ) : ℂ) * R i i := by
      rw [signDiag, Matrix.diagonal_mul]
    rw [h]
    exact npSign_smul_nonneg (hnz i) (hre i)
  · show Q * signDiag R * (signDiag R * R) = A
    rw [hQR, Matrix.mul_assoc,
      ← Matrix.mul_assoc (signDiag R) (signDiag R) R,
      signDiag_mul_self R hnz hre, Matrix.one_mul]

theorem C4_reortho_sign_correction_witness :
    (reortho (1 : Matrix (Fin 1) (Fin 1) ℂ) Rneg).1 * (signDiag Rneg * Rneg) =
      Rneg ∧
    ((reortho (1 : Matrix (Fin 1) (Fin 1) ℂ) Rneg).1).conjTranspose *
      (reortho (1 : Matrix (Fin 1) (Fin 1) ℂ) Rneg).1 = 1 ∧
    (reortho (1 : Matrix (Fin 1) (Fin 1) ℂ) Rneg).2 =
      (signDiag Rneg * Rneg).det := by
  have h := C4_reortho_sign_correction Rneg 1 Rneg (le_refl 1)
    (Matrix.one_mul Rneg).symm
    (by rw [Matrix.conjTranspose_one, Matrix.one_mul])
    (by intro i j hij; fin_cases i; fin_cases j; simp at hij)
    (fun i => by rw [Rneg_apply]; norm_num)
    (fun i => by rw [Rneg_apply]; norm_num)
  exact ⟨h.2.2.2.1, h.2.1, h.2.2.2.2⟩

/-- Claim C3: the checkpoint quantum-energy estimate of the Population
Controller is invariant under rescaling every weight by the same positive
constant, for every weight list and matching quantum-energy and
overlap-ratio lists with nonzero denominator. -/
theorem C3_checkpoint_weight_scale_invariance (ws : List ℝ)
    (qEs ratios : List ℂ) (c : ℝ) (hc : 0 < c)
    (hden : wsumC ws ratios ≠ 0) :
    qEnergyCheckpoint (ws.map fun w => c * w) qEs ratios =
      qEnergyCheckpoint ws qEs ratios := by
  have hc' : (c : ℂ) ≠ 0 := Complex.ofReal_ne_zero.mpr (ne_of_gt hc)
  rw [qEnergyCheckpoint, qEnergyCheckpoint, wsumC_map_mul, wsumC_map_mul,
    mul_div_mul_left _ _ hc']

theorem C3_checkpoint_weight_scale_invariance_witness :
    (0 : ℝ) < 2 ∧ wsumC [1] [1] ≠ 0 ∧
    qEnergyCheckpoint ([(1 : ℝ)].map fun w => 2 * w) [(2 : ℂ)] [1] =
      qEnergyCheckpoint [1] [(2 : ℂ)] [1] := by
  have hden : wsumC [(1 : ℝ)] [(1 : ℂ)] ≠ 0 := by
    norm_num [wsumC]
  exact ⟨by norm_num, hden,
    C3_checkpoint_weight_scale_invariance [1] [2] [1] 2 (by norm_num) hden⟩

/-- The QAEE step driver ImagTimePropagator_QAEE.  The external
collaborators are passed as function parameters: cEloc is the classical
local-energy computation (G_pq composed with local_energy on the
spin-sliced blocks of trial and walker), propW is the classical
PropagateWalker routine, ampEst is amplitude_estimate on the device, and
leq is local_energy_quantum on the device (as a function of the walker and
the quantum overlap).  The auxiliary-field draw x is passed explicitly.
Returns the tuple (E_loc, E_loc_q / c_ovlp, q_ovlp / c_ovlp, new_walker,
new_weight) exactly as the source does. -/
noncomputable def ImagTimePropagator_QAEE {n k L : ℕ}
    (cEloc : Matrix (Fin n) (Fin k) ℂ → Matrix (Fin n) (Fin k) ℂ → ℂ)
    (propW : (Fin L → ℝ) → Matrix (Fin n) (Fin k) ℂ →
      Matrix (Fin n) (Fin k) ℂ → Matrix (Fin n) (Fin k) ℂ)
    (ampEst : Matrix (Fin n) (Fin k) ℂ → ℂ)
    (leq : Matrix (Fin n) (Fin k) ℂ → ℂ → ℂ)
    (dtau : ℝ) (trial walker : Matrix (Fin n) (Fin k) ℂ) (weight : ℝ)
    (enuc : ℝ) (E_shift : ℝ) (x : Fin L → ℝ) :
    ℂ × ℂ × ℂ × Matrix (Fin n) (Fin k) ℂ × ℝ :=
  let ovlp : ℂ := (trial.conjTranspose * walker).det
  let E_loc : ℂ := cEloc trial walker
  let c_ovlp : ℂ := (trial.conjTranspose * walker).det
  let q_ovlp : ℂ := ampEst walker
  let E_loc_q : ℂ := leq walker q_ovlp + q_ovlp * (enuc : ℂ)
  let new_walker := propW x trial walker
  let new_ovlp : ℂ := (trial.conjTranspose * new_walker).det
  let arg : ℝ := Complex.arg (new_ovlp / ovlp)
  let new_weight : ℝ :=
    weight * Real.exp (-dtau * (E_loc.re - E_shift)) * max 0 (Real.cos arg)
  (E_loc, E_loc_q / c_ovlp, q_ovlp / c_ovlp, new_walker, new_weight)

/-- The fully quantum step driver qImagTimePropagator.  qpropW is
qPropagateWalker on the device (as a function of the auxiliary fields, the
walker and the overlap), ampEst is amplitude_estimate on the device, and
leq is local_energy_quantum on the device.  Returns (E_loc, new_ovlp,
new_walker, new_weight) exactly as the source does. -/
noncomputable def qImagTimePropagator {n k L : ℕ}
    (leq : Matrix (Fin n) (Fin k) ℂ → ℂ → ℂ)
    (qpropW : (Fin L → ℝ) → Matrix (Fin n) (Fin k) ℂ → ℂ →
      Matrix (Fin n) (Fin k) ℂ)
    (ampEst : Matrix (Fin n) (Fin k) ℂ → ℂ)
    (dtau : ℝ) (walker : Matrix (Fin n) (Fin k) ℂ) (weight : ℝ) (ovlp : ℂ)
    (enuc : ℝ) (E_shift : ℝ) (x : Fin L → ℝ) :
    ℂ × ℂ × Matrix (Fin n) (Fin k) ℂ × ℝ :=
  let E_loc : ℂ := leq walker ovlp / ovlp + (enuc : ℂ)
  let new_walker := qpropW x walker ovlp
  let new_ovlp : ℂ := ampEst new_walker
  let arg : ℝ := Complex.arg (new_ovlp / ovlp)
  let new_weight : ℝ :=
    weight * Real.exp (-dtau * (E_loc.re - E_shift)) * max 0 (Real.cos arg)
  (E_loc, new_ovlp, new_walker, new_weight)

/-- Claim C1: in both step drivers the returned new weight equals
weight * exp(-dtau * (Re(E_loc) - E_shift)) * max(0, cos(angle(new_overlap
/ overlap))), and in particular, for weight 1, dtau 1/10, vanishing E_loc
and E_shift and a new overlap equal to the (nonzero) old overlap, the
returned new weight equals 1. -/
theorem C1_new_weight_formula :
    (∀ (n k L : ℕ)
        (cEloc : Matrix (Fin n) (Fin k) ℂ → Matrix (Fin n) (Fin k) ℂ → ℂ)
        (propW : (Fin L → ℝ) → Matrix (Fin n) (Fin k) ℂ →
          Matrix (Fin n) (Fin k) ℂ → Matrix (Fin n) (Fin k) ℂ)
        (ampEst : Matrix (Fin n) (Fin k) ℂ → ℂ)
        (leq : Matrix (Fin n) (Fin k) ℂ → ℂ → ℂ)
        (dtau : ℝ) (trial walker : Matrix (Fin n) (Fin k) ℂ)
        (weight enuc E_shift : ℝ) (x : Fin L → ℝ),
      (ImagTimePropagator_QAEE cEloc propW ampEst leq dtau trial walker
          weight enuc E_shift x).2.2.2.2 =
        weight * Real.exp (-dtau * ((cEloc trial walker).re - E_shift)) *
          max 0 (Real.cos (Complex.arg
            ((trial.conjTranspose * propW x trial walker).det /
              (trial.conjTranspose * walker).det)))) ∧
    (∀ (n k L : ℕ)
        (leq : Matrix (Fin n) (Fin k) ℂ → ℂ → ℂ)
        (qpropW : (Fin L → ℝ) → Matrix (Fin n) (Fin k) ℂ → ℂ →
          Matrix (Fin n) (Fin k) ℂ)
        (ampEst : Matrix (Fin n) (Fin k) ℂ → ℂ)
        (dtau : ℝ) (walker : Matrix (Fin n) (Fin k) ℂ)
        (weight : ℝ) (ovlp : ℂ) (enuc E_shift : ℝ) (x : Fin L → ℝ),
      (qImagTimePropagator leq qpropW ampEst dtau walker weight ovlp enuc
          E_shift x).2.2.2 =
        weight *
          Real.exp (-dtau * ((leq walker ovlp / ovlp + (enuc : ℂ)).re -
            E_shift)) *
          max 0 (Real.cos (Complex.arg
            (ampEst (qpropW x walker ovlp) / ovlp)))) ∧
    (∀ (n k L : ℕ)
        (cEloc : Matrix (Fin n) (Fin k) ℂ → Matrix (Fin n) (Fin k) ℂ → ℂ)
        (propW : (Fin L → ℝ) → Matrix (Fin n) (Fin k) ℂ →
          Matrix (Fin n) (Fin k) ℂ → Matrix (Fin n) (Fin k) ℂ)
        (ampEst : Matrix (Fin n) (Fin k) ℂ → ℂ)
        (leq : Matrix (Fin n) (Fin k) ℂ → ℂ → ℂ)
        (trial walker : Matrix (Fin n) (Fin k) ℂ)
        (enuc : ℝ) (x : Fin L → ℝ),
      cEloc trial walker = 0 →
      (trial.conjTranspose * propW x trial walker).det =
        (trial.conjTranspose * walker).det →
      (trial.conjTranspose * walker).det ≠ 0 →
      (ImagTimePropagator_QAEE cEloc propW ampEst leq (1 / 10) trial walker
          1 enuc 0 x).2.2.2.2 = 1) ∧
    (∀ (n k L : ℕ)
        (leq : Matrix (Fin n) (Fin k) ℂ → ℂ → ℂ)
        (qpropW : (Fin L → ℝ) → Matrix (Fin n) (Fin k) ℂ → ℂ →
          Matrix (Fin n) (Fin k) ℂ)
        (ampEst : Matrix (Fin n) (Fin k) ℂ → ℂ)
        (walker : Matrix (Fin n) (Fin k) ℂ) (ovlp : ℂ)
        (enuc : ℝ) (x : Fin L → ℝ),
      leq walker ovlp / ovlp + (enuc : ℂ) = 0 →
      ampEst (qpropW x walker ovlp) = ovlp →
      ovlp ≠ 0 →
      (qImagTimePropagator leq qpropW ampEst (1 / 10) walker 1 ovlp enuc 0
          x).2.2.2 = 1) := by
  refine ⟨fun _ _ _ _ _ _ _ _ _ _ _ _ _ _ => rfl,
    fun _ _ _ _ _ _ _ _ _ _ _ _ _ => rfl, ?_, ?_⟩
  · intro n k L cEloc propW ampEst leq trial walker enuc x hE hdet hnz
    show (1 : ℝ) *
        Real.exp (-(1 / 10) * ((cEloc trial walker).re - 0)) *
        max 0 (Real.cos (Complex.arg
          ((trial.conjTranspose * propW x trial walker).det /
            (trial.conjTranspose * walker).det))) = 1
    rw [hE, hdet, div_self hnz, Complex.arg_one, Real.cos_zero,
      Complex.zero_re]
    norm_num [Real.exp_zero]
  · intro n k L leq qpropW ampEst walker ovlp enuc x hE hamp hnz
    show (1 : ℝ) *
        Real.exp (-(1 / 10) * ((leq walker ovlp / ovlp + (enuc : ℂ)).re -
          0)) *
        max 0 (Real.cos (Complex.arg
          (ampEst (qpropW x walker ovlp) / ovlp))) = 1
    rw [hE, hamp, div_self hnz, Complex.arg_one, Real.cos_zero,
      Complex.zero_re]
    norm_num [Real.exp_zero]

/-- A constant-zero classical local-energy oracle on one-by-one systems. -/
def cElocZero : Matrix (Fin 1) (Fin 1) ℂ → Matrix (Fin 1) (Fin 1) ℂ → ℂ :=
  fun _ _ => 0

/-- A walker propagation oracle that leaves the walker unchanged. -/
def propWid : (Fin 1 → ℝ) → Matrix (Fin 1) (Fin 1) ℂ →
    Matrix (Fin 1) (Fin 1) ℂ → Matrix (Fin 1) (Fin 1) ℂ :=
  fun _ _ w => w

/-- A constant-one amplitude-estimate oracle. -/
def ampEstOne : Matrix (Fin 1) (Fin 1) ℂ → ℂ := fun _ => 1

/-- A constant-zero quantum local-energy oracle. -/
def leqZero : Matrix (Fin 1) (Fin 1) ℂ → ℂ → ℂ := fun _ _ => 0

/-- A quantum walker propagation oracle that leaves the walker
unchanged. -/
def qpropWid : (Fin 1 → ℝ) → Matrix (Fin 1) (Fin 1) ℂ → ℂ →
    Matrix (Fin 1) (Fin 1) ℂ :=
  fun _ w _ => w

theorem C1_new_weight_formula_witness :
    (ImagTimePropagator_QAEE cElocZero propWid ampEstOne leqZero (1 / 10) 1
        1 1 0 0 (fun _ => 0)).2.2.2.2 = 1 ∧
    (qImagTimePropagator leqZero qpropWid ampEstOne (1 / 10) 1 1 1 0 0
        (fun _ => 0)).2.2.2 = 1 := by
  constructor
  · exact C1_new_weight_formula.2.2.1 1 1 1 cElocZero propWid ampEstOne
      leqZero 1 1 0 (fun _ => 0) rfl rfl (by simp)
  · exact C1_new_weight_formula.2.2.2 1 1 1 leqZero qpropWid ampEstOne 1 1
      0 (fun _ => 0) (by simp [leqZero]) rfl one_ne_zero

/-- Claim C8: two runs of ImagTimePropagator_QAEE on the same inputs and
random draw, differing only in the device handle (hence in the
amplitude-estimate and quantum-local-energy oracles), return the same
new walker and new weight: the quantum estimates affect only the
diagnostic return components. -/
theorem C8_device_independent_walker_and_weight {n k L : ℕ}
    (cEloc : Matrix (Fin n) (Fin k) ℂ → Matrix (Fin n) (Fin k) ℂ → ℂ)
    (propW : (Fin L → ℝ) → Matrix (Fin n) (Fin k) ℂ →
      Matrix (Fin n) (Fin k) ℂ → Matrix (Fin n) (Fin k) ℂ)
    (ampEstA ampEstB : Matrix (Fin n) (Fin k) ℂ → ℂ)
    (leqA leqB : Matrix (Fin n) (Fin k) ℂ → ℂ → ℂ)
    (dtau : ℝ) (trial walker : Matrix (Fin n) (Fin k) ℂ) (weight : ℝ)
    (enuc : ℝ) (E_shift : ℝ) (x : Fin L → ℝ) :
    (ImagTimePropagator_QAEE cEloc propW ampEstA leqA dtau trial walker
        weight enuc E_shift x).2.2.2.1 =
      (ImagTimePropagator_QAEE cEloc propW ampEstB leqB dtau trial walker
        weight enuc E_shift x).2.2.2.1 ∧
    (ImagTimePropagator_QAEE cEloc propW ampEstA leqA dtau trial walker
        weight enuc E_shift x).2.2.2.2 =
      (ImagTimePropagator_QAEE cEloc propW ampEstB leqB dtau trial walker
        weight enuc E_shift x).2.2.2.2 :=
  ⟨rfl, rfl⟩

/-- A state of an n-qubit register: an amplitude for every computational
basis assignment of the wires. -/
def QState (n : ℕ) := (Fin n → Bool) → ℂ

/-- The RZ rotation gate on one wire: phase exp(-i theta / 2) on the zero
branch and exp(i theta / 2) on the one branch. -/
noncomputable def RZgate {n : ℕ} (theta : ℝ) (w : Fin n) (psi : QState n) :
    QState n :=
  fun x =>
    (if x w then Complex.exp (Complex.I * (theta : ℂ) / 2)
     else Complex.exp (-(Complex.I * (theta : ℂ) / 2))) * psi x

/-- The Pauli Z gate on one wire. -/
def PauliZgate {n : ℕ} (w : Fin n) (psi : QState n) : QState n :=
  fun x => (if x w then -1 else 1) * psi x

/-- The controlled-NOT gate with control c and target t. -/
def CNOTgate {n : ℕ} (c t : Fin n) (psi : QState n) : QState n :=
  fun x => psi (Function.update x t (xor (x t) (x c)))

/-- The RY rotation gate on one wire. -/
noncomputable def RYgate {n : ℕ} (theta : ℝ) (w : Fin n) (psi : QState n) :
    QState n :=
  fun x =>
    (Real.cos (theta / 2) : ℂ) * psi x +
      (if x w then (Real.sin (theta / 2) : ℂ)
       else -(Real.sin (theta / 2) : ℂ)) *
        psi (Function.update x w (!x w))

/-- One Givens rotation tuple (i, j, theta, varphi) as produced by the
openfermion decomposition. -/
structure GivensRot (n : ℕ) where
  i : Fin n
  j : Fin n
  theta : ℝ
  varphi : ℝ

/-- The Givens rotation block circuit from a single givens tuple, gates in
source order: RZ(-varphi) on j, CNOT(j,i), RY(theta) on j, CNOT(i,j),
RY(-theta) on j, CNOT(i,j), CNOT(j,i). -/
noncomputable def givens_block_circuit {n : ℕ} (g : GivensRot n) :
    QState n → QState n :=
  CNOTgate g.j g.i ∘ CNOTgate g.i g.j ∘ RYgate (-g.theta) g.j ∘
    CNOTgate g.i g.j ∘ RYgate g.theta g.j ∘ CNOTgate g.j g.i ∘
    RZgate (-g.varphi) g.j

/-- The adjoint of the Givens rotation block circuit: the gates of
givens_block_circuit in reverse order, each inverted. -/
noncomputable def givens_block_adj {n : ℕ} (g : GivensRot n) :
    QState n → QState n :=
  RZgate g.varphi g.j ∘ CNOTgate g.j g.i ∘ RYgate (-g.theta) g.j ∘
    CNOTgate g.i g.j ∘ RYgate g.theta g.j ∘ CNOTgate g.i g.j ∘
    CNOTgate g.j g.i

/-- The Slater-determinant preparation circuit: the adjoint Givens block
for every tuple of every parallel set of the circuit description, applied
in sequence. -/
noncomputable def prepare_slater_circuit {n : ℕ}
    (desc : List (List (GivensRot n))) : QState n → QState n :=
  desc.flatten.foldl (fun acc g => givens_block_adj g ∘ acc) id

/-- The adjoint of the Slater-determinant preparation circuit. -/
noncomputable def prepare_slater_adj {n : ℕ}
    (desc : List (List (GivensRot n))) : QState n → QState n :=
  desc.flatten.reverse.foldl (fun acc g => givens_block_circuit g ∘ acc) id

/-- The result of the openfermion square Givens decomposition of a
unitary: a circuit description and a diagonal of unit-modulus phases. -/
structure GDecomp (n : ℕ) where
  decomposition : List (List (GivensRot n))
  diagonal : List ℂ

/-- RZ gates with the angles of a list of diagonal phases, applied to
consecutive wires starting at w; an index beyond the register is a no-op
(the decomposition of an n-by-n unitary yields exactly n phases). -/
noncomputable def applyRZlist {n : ℕ} :
    List ℂ → ℕ → QState n → QState n
  | [], _ => id
  | d :: ds, w =>
    applyRZlist ds (w + 1) ∘
      (if h : w < n then RZgate (Complex.arg d) ⟨w, h⟩ else id)

/-- The adjoint of applyRZlist: negated angles in reverse order. -/
noncomputable def applyRZlistAdj {n : ℕ} :
    List ℂ → ℕ → QState n → QState n
  | [], _ => id
  | d :: ds, w =>
    (if h : w < n then RZgate (-Complex.arg d) ⟨w, h⟩ else id) ∘
      applyRZlistAdj ds (w + 1)

/-- The circuit performing the unitary transformation U, built from its
Givens decomposition: RZ gates for the diagonal phases, then, when the
reversed circuit description is nonempty, the Slater preparation
circuit. -/
noncomputable def U_circuit {n : ℕ} (gd : GDecomp n) :
    QState n → QState n :=
  (if gd.decomposition.reverse.isEmpty then id
   else prepare_slater_circuit gd.decomposition.reverse) ∘
    applyRZlist gd.diagonal 0

/-- The adjoint of U_circuit. -/
noncomputable def U_circuit_adj {n : ℕ} (gd : GDecomp n) :
    QState n → QState n :=
  applyRZlistAdj gd.diagonal 0 ∘
    (if gd.decomposition.reverse.isEmpty then id
     else prepare_slater_adj gd.decomposition.reverse)

/-- Pauli Z gates on every wire of the pauli index list. -/
def zList {n : ℕ} (pauli : List (Fin n)) : QState n → QState n :=
  pauli.foldl (fun acc w => PauliZgate w ∘ acc) id

/-- The measurement circuit of amplitude_estimate for the real part:
the first-half circuit followed by the real second-half circuit.  The two
halves (circuit_first_half and circuit_second_half_real / _imag, which
depend only on the walker and the trial circuit) are shared verbatim with
pauli_estimate and are passed as parameters. -/
def amplitude_real_circuit {n : ℕ} (fh shr : QState n → QState n) :
    QState n → QState n :=
  shr ∘ fh

/-- The measurement circuit of amplitude_estimate for the imaginary
part. -/
def amplitude_imag_circuit {n : ℕ} (fh shi : QState n → QState n) :
    QState n → QState n :=
  shi ∘ fh

/-- The measurement circuit of pauli_estimate for the real part: the
first half, the basis change U, the Z gates of the pauli set, the inverse
basis change, and the real second half. -/
noncomputable def pauli_real_circuit {n : ℕ}
    (fh shr : QState n → QState n) (gd : GDecomp n)
    (pauli : List (Fin n)) : QState n → QState n :=
  shr ∘ U_circuit_adj gd ∘ zList pauli ∘ U_circuit gd ∘ fh

/-- The measurement circuit of pauli_estimate for the imaginary part. -/
noncomputable def pauli_imag_circuit {n : ℕ}
    (fh shi : QState n → QState n) (gd : GDecomp n)
    (pauli : List (Fin n)) : QState n → QState n :=
  shi ∘ U_circuit_adj gd ∘ zList pauli ∘ U_circuit gd ∘ fh

/-- amplitude_estimate: the device (an oracle from a circuit to the
measured probability vector) is run on the real and imaginary circuits;
each run contributes the probability at index 0 minus the probability at
index 2 to the power n divided by 2. -/
noncomputable def amplitude_estimate {n : ℕ}
    (dev : (QState n → QState n) → ℕ → ℝ)
    (fh shr shi : QState n → QState n) : ℂ :=
  let pr := dev (amplitude_real_circuit fh shr)
  let re := pr 0 - pr (2 ^ n / 2)
  let pim := dev (amplitude_imag_circuit fh shi)
  let im := pim 0 - pim (2 ^ n / 2)
  (re : ℂ) + Complex.I * (im : ℂ)

/-- pauli_estimate: as amplitude_estimate but with the basis-change and
Pauli gates inserted between the two halves. -/
noncomputable def pauli_estimate {n : ℕ}
    (dev : (QState n → QState n) → ℕ → ℝ)
    (fh shr shi : QState n → QState n) (gd : GDecomp n)
    (pauli : List (Fin n)) : ℂ :=
  let pr := dev (pauli_real_circuit fh shr gd pauli)
  let re := pr 0 - pr (2 ^ n / 2)
  let pim := dev (pauli_imag_circuit fh shi gd pauli)
  let im := pim 0 - pim (2 ^ n / 2)
  (re : ℂ) + Complex.I * (im : ℂ)

theorem RZgate_zero {n : ℕ} (w : Fin n) : RZgate 0 w = id := by
  funext psi x
  have h : Complex.I * ((0 : ℝ) : ℂ) / 2 = 0 := by
    simp
  simp [RZgate, h]

theorem applyRZlist_replicate_one {n : ℕ} :
    ∀ m w : ℕ, applyRZlist (n := n) (List.replicate m 1) w = id := by
  intro m
  induction m with
  | zero => intro w; rfl
  | succ m ih =>
    intro w
    simp only [List.replicate_succ, applyRZlist, ih, Complex.arg_one]
    by_cases h : w < n
    · simp [h, RZgate_zero]
    · simp [h]

theorem applyRZlistAdj_replicate_one {n : ℕ} :
    ∀ m w : ℕ, applyRZlistAdj (n := n) (List.replicate m 1) w = id := by
  intro m
  induction m with
  | zero => intro w; rfl
  | succ m ih =>
    intro w
    simp only [List.replicate_succ, applyRZlistAdj, ih, Complex.arg_one,
      neg_zero]
    by_cases h : w < n
    · simp [h, RZgate_zero]
    · simp [h]

/-- Claim C6: pauli_estimate with U the identity matrix and an empty Pauli
index list returns the same complex value as amplitude_estimate, for every
walker first-half circuit, trial second-half circuits, and device.  The
openfermion Givens decomposition is the external oracle; the hypothesis
states its documented output on the identity: an empty circuit description
(the basis change is skipped as an empty product) and a unit diagonal. -/
theorem C6_pauli_estimate_identity_empty (n : ℕ)
    (gdec : Matrix (Fin n) (Fin n) ℂ → GDecomp n)
    (dev : (QState n → QState n) → ℕ → ℝ)
    (fh shr shi : QState n → QState n)
    (hid : gdec 1 = ⟨[], List.replicate n 1⟩) :
    pauli_estimate dev fh shr shi (gdec 1) [] =
      amplitude_estimate dev fh shr shi := by
  rw [hid]
  have hU : U_circuit (n := n) ⟨[], List.replicate n 1⟩ = id := by
    rw [U_circuit]
    simp only [List.reverse_nil, List.isEmpty_nil, if_true]
    rw [applyRZlist_replicate_one]
    rfl
  have hUadj : U_circuit_adj (n := n) ⟨[], List.replicate n 1⟩ = id := by
    rw [U_circuit_adj]
    simp only [List.reverse_nil, List.isEmpty_nil, if_true]
    rw [applyRZlistAdj_replicate_one]
    rfl
  simp only [pauli_estimate, amplitude_estimate, pauli_real_circuit,
    pauli_imag_circuit, amplitude_real_circuit, amplitude_imag_circuit,
    hU, hUadj, zList, List.foldl_nil, Function.comp_id, Function.id_comp]

/-- A Givens-decomposition oracle returning the trivial decomposition, as
the openfermion routine does on the identity. -/
def gdecTriv : Matrix (Fin 1) (Fin 1) ℂ → GDecomp 1 :=
  fun _ => ⟨[], List.replicate 1 1⟩

/-- A device oracle returning the zero probability vector. -/
def devZero : (QState 1 → QState 1) → ℕ → ℝ := fun _ _ => 0

theorem C6_pauli_estimate_identity_empty_witness :
    gdecTriv 1 = ⟨[], List.replicate 1 1⟩ ∧
    pauli_estimate devZero id id id (gdecTriv 1) [] =
      amplitude_estimate devZero id id id :=
  ⟨rfl, C6_pauli_estimate_identity_empty 1 gdecTriv devZero id id id rfl⟩

/-- The branch predicate of local_energy_quantum for a Cholesky
eigenvector matrix U: every entry of U minus the diagonal part of U rounds
to zero at 7 decimal places, which is the source test
np.count_nonzero(np.round(U - np.diag(np.diagonal(U)), 7)) == 0. -/
def isDiagRound7 {n : ℕ} (U : Matrix (Fin n) (Fin n) ℂ) : Prop :=
  ∀ i j, roundC7 ((U - Matrix.diagonal fun k => U k k) i j) = 0

/-- U equals the identity up to the 7-decimal rounding tolerance: every
entry of U minus the identity rounds to zero at 7 decimal places.  This is
the condition the specification names for the cache-reuse branch. -/
def eqIdRound7 {n : ℕ} (U : Matrix (Fin n) (Fin n) ℂ) : Prop :=
  ∀ i j, roundC7 ((U - 1) i j) = 0

open Classical in
/-- local_energy_quantum: the one-body pass sums one_body[i,i] times
0.5 (ovlp - Z_i estimate) in the identity basis; the two-body pass sums,
for each Cholesky factor (lambda, U) and each ordered pair i <= j,
0.5 lambda_i lambda_j times the pair expectation, looking the single and
pair estimates up in the shared identity-basis cache when U passes the
diagonality test and in a fresh cache keyed by U otherwise.
pauli_estimate on the fixed walker, trial circuit and device is the oracle
pe, a function of the basis-change matrix and the Pauli index list. -/
noncomputable def local_energy_quantum {n : ℕ}
    (pe : Matrix (Fin n) (Fin n) ℂ → List (Fin n) → ℂ)
    (ovlp : ℂ) (one_body : Matrix (Fin n) (Fin n) ℂ)
    (lambda_l : List (Fin n → ℝ)) (U_l : List (Matrix (Fin n) (Fin n) ℂ)) :
    ℂ :=
  (∑ i, one_body i i * ((1 / 2 : ℂ) * (ovlp - pe 1 [i]))) +
    ((lambda_l.zip U_l).map fun lU =>
      let peU := if isDiagRound7 lU.2 then pe 1 else pe lU.2
      ∑ i, ∑ j,
        if i ≤ j then
          ((1 / 2 * lU.1 i * lU.1 j : ℝ) : ℂ) *
            (if i = j then (1 / 2 : ℂ) * (ovlp - peU [i])
             else (1 / 2 : ℂ) *
               (ovlp - peU [i] - peU [j] + peU [i, j]))
        else 0).sum

/-- Claim C7, amended: the value of local_energy_quantum depends on the
pauli_estimate oracle only through its values in the identity basis and at
those Cholesky eigenvector matrices that fail the 7-decimal diagonality
test; in particular the shared identity-basis cache is reused for every
factor whose U passes that test (diagonal up to rounding), not only for U
equal to the identity. -/
theorem C7_cache_dependence {n : ℕ}
    (pe pe' : Matrix (Fin n) (Fin n) ℂ → List (Fin n) → ℂ)
    (ovlp : ℂ) (one_body : Matrix (Fin n) (Fin n) ℂ)
    (lambda_l : List (Fin n → ℝ)) (U_l : List (Matrix (Fin n) (Fin n) ℂ))
    (h1 : ∀ p, pe 1 p = pe' 1 p)
    (h2 : ∀ U ∈ U_l, ¬ isDiagRound7 U → ∀ p, pe U p = pe' U p) :
    local_energy_quantum pe ovlp one_body lambda_l U_l =
      local_energy_quantum pe' ovlp one_body lambda_l U_l := by
  rw [local_energy_quantum, local_energy_quantum]
  congr 1
  · exact Finset.sum_congr rfl fun i _ => by rw [h1]
  · congr 1
    refine List.map_congr_left fun lU hmem => ?_
    have hU : lU.2 ∈ U_l := (List.of_mem_zip hmem).2
    by_cases hdiag : isDiagRound7 lU.2
    · simp only [if_pos hdiag, h1]
    · simp only [if_neg hdiag, h2 lU.2 hU hdiag]

/-- The diagonal, non-identity two-by-two unitary diag(1, -1). -/
noncomputable def U0diag : Matrix (Fin 2) (Fin 2) ℂ :=
  Matrix.diagonal ![1, -1]

/-- A pauli-estimate oracle reading the bottom-right entry of the basis
matrix. -/
def peDiagA : Matrix (Fin 2) (Fin 2) ℂ → List (Fin 2) → ℂ :=
  fun U _ => U 1 1

/-- A pauli-estimate oracle reading the square of the bottom-right entry
of the basis matrix; it agrees with peDiagA in the identity basis and
differs from it at U0diag. -/
def peDiagB : Matrix (Fin 2) (Fin 2) ℂ → List (Fin 2) → ℂ :=
  fun U _ => U 1 1 * U 1 1

theorem U0diag_isDiagRound7 : isDiagRound7 U0diag := by
  intro i j
  have h : (U0diag - Matrix.diagonal fun k => U0diag k k) i j = 0 := by
    have hd : (Matrix.diagonal fun k => U0diag k k) = U0diag := by
      rw [show (fun k => U0diag k k) = ![1, -1] by
        funext k
        rw [U0diag, Matrix.diagonal_apply_eq]]
      rfl
    rw [hd, sub_self, Matrix.zero_apply]
  rw [h, roundC7_zero]

/-- Claim C7 counterexample: U0diag passes the code's branch test although
it does not equal the identity up to the 7-decimal rounding tolerance, and
local_energy_quantum consequently returns the same value for two oracles
that differ at U0diag (so no fresh per-factor estimates with basis change
U0diag are consumed, contrary to the claim). -/
theorem C7_cache_reuse_counterexample :
    isDiagRound7 U0diag ∧ ¬ eqIdRound7 U0diag ∧
    peDiagA U0diag [0] ≠ peDiagB U0diag [0] ∧
    local_energy_quantum peDiagA 0 0 [![(1 : ℝ), 1]] [U0diag] =
      local_energy_quantum peDiagB 0 0 [![(1 : ℝ), 1]] [U0diag] := by
  refine ⟨U0diag_isDiagRound7, ?_, ?_, ?_⟩
  · intro h
    have h11 := h 1 1
    have hval : (U0diag - 1) 1 1 = -2 := by
      rw [Matrix.sub_apply, U0diag, Matrix.diagonal_apply_eq,
        Matrix.one_apply_eq]
      norm_num [Matrix.cons_val_one]
    rw [hval] at h11
    have hre : roundTo 7 ((-2 : ℂ)).re = -2 := by
      have hcast : ((-2 : ℂ)).re * (10 : ℝ) ^ (7 : ℕ) =
          ((-20000000 : ℤ) : ℝ) := by
        norm_num
      rw [roundTo, hcast, npRound_intCast]
      norm_num
    have hz : roundTo 7 ((-2 : ℂ)).re = 0 := by
      have hc := congrArg Complex.re h11
      simpa [roundC7] using hc
    rw [hre] at hz
    norm_num at hz
  · intro h
    have hA : peDiagA U0diag [0] = -1 := by
      rw [peDiagA, U0diag, Matrix.diagonal_apply_eq]
      norm_num [Matrix.cons_val_one]
    have hB : peDiagB U0diag [0] = 1 := by
      rw [peDiagB, U0diag, Matrix.diagonal_apply_eq]
      norm_num [Matrix.cons_val_one]
    rw [hA, hB] at h
    norm_num at h
  · rw [local_energy_quantum, local_energy_quantum]
    congr 1
    · refine Finset.sum_congr rfl fun i _ => ?_
      rw [show peDiagA 1 [i] = peDiagB 1 [i] by
        rw [peDiagA, peDiagB, Matrix.one_apply_eq]
        norm_num]
    · congr 1
      refine List.map_congr_left fun lU hmem => ?_
      have hU : lU.2 = U0diag := by
        have h2 := (List.of_mem_zip hmem).2
        simpa using h2
      rw [hU, if_pos U0diag_isDiagRound7, if_pos U0diag_isDiagRound7]
      rw [show peDiagA 1 = peDiagB 1 by
        funext p
        rw [peDiagA, peDiagB, Matrix.one_apply_eq]
        norm_num]

theorem idMat2_isDiagRound7 : isDiagRound7 (1 : Matrix (Fin 2) (Fin 2) ℂ) := by
  intro i j
  have hd : (Matrix.diagonal fun k => (1 : Matrix (Fin 2) (Fin 2) ℂ) k k) =
      (1 : Matrix (Fin 2) (Fin 2) ℂ) := by
    rw [show (fun k => (1 : Matrix (Fin 2) (Fin 2) ℂ) k k) =
        fun _ => (1 : ℂ) by
      funext k
      rw [Matrix.one_apply_eq]]
    exact Matrix.diagonal_one
  rw [show ((1 : Matrix (Fin 2) (Fin 2) ℂ) -
      Matrix.diagonal fun k => (1 : Matrix (Fin 2) (Fin 2) ℂ) k k) i j =
      0 by rw [hd, sub_self, Matrix.zero_apply], roundC7_zero]

theorem C7_cache_dependence_witness :
    local_energy_quantum peDiagA 0 0 [![(1 : ℝ), 1]] [1] =
      local_energy_quantum peDiagB 0 0 [![(1 : ℝ), 1]] [1] := by
  have h1 : ∀ p : List (Fin 2), peDiagA 1 p = peDiagB 1 p := fun p => by
    rw [peDiagA, peDiagB, Matrix.one_apply_eq]
    norm_num
  refine C7_cache_dependence peDiagA peDiagB 0 0 _ _ h1 ?_
  intro U hU hnd p
  rw [List.mem_singleton] at hU
  subst hU
  exact absurd idMat2_isDiagRound7 hnd

/-- The walker pruning threshold 1E-16 of qAFQMC. -/
noncomputable def weightThreshold : ℝ := 1e-16

/-- The run-aborting error of the Population Controller: numpy average
raises ZeroDivisionError when the weights sum to zero. -/
inductive AFQMCError where
  | zeroWeightSum
deriving DecidableEq

/-- The loop state of qAFQMC: the classical and quantum energy traces, the
current energy shift, and the walker population as the parallel walker and
weight lists. -/
structure AFQMCState (Wk : Type) where
  cE : List ℝ
  qE : List ℝ
  E_shift : ℝ
  walkers : List Wk
  weights : List ℝ

/-- The run configuration of qAFQMC.  The two per-walker step drivers are
supplied as functions of the step index, the walker index, the current
energy shift, the walker and its weight; the step and walker indices
stand for the per-call stochastic draws and device measurements of one
realized run.  cDriver returns (E_loc, new_walker, new_weight) as the
external classical ImagTimePropagator does; qDriver returns (E_loc,
E_loc_q over c_ovlp, q_ovlp over c_ovlp, new_walker, new_weight) as
ImagTimePropagator_QAEE does. -/
structure AFQMCConfig (Wk : Type) where
  num_walkers : ℕ
  num_steps : ℕ
  dtau : ℝ
  qTotalTime : List ℝ
  Ehf : ℝ
  trial : Wk
  cDriver : ℕ → ℕ → ℝ → Wk → ℝ → ℂ × Wk × ℝ
  qDriver : ℕ → ℕ → ℝ → Wk → ℝ → ℂ × ℂ × ℂ × Wk × ℝ

/-- The initial loop state: every one of the num_walkers walkers is the
trial state with weight one, the energy shift is the Hartree-Fock
reference, and both traces are empty. -/
def initState {Wk : Type} (cfg : AFQMCConfig Wk) : AFQMCState Wk :=
  { cE := []
    qE := []
    E_shift := cfg.Ehf
    walkers := List.replicate cfg.num_walkers cfg.trial
    weights := List.replicate cfg.num_walkers 1 }

open Classical in
/-- Keep exactly the elements whose weight projection exceeds the pruning
threshold, preserving order: the collection loop of qAFQMC appends the
(walker, weight) data of a result only when new_weight > 1E-16. -/
noncomputable def filterPos {α : Type} (w : α → ℝ) : List α → List α
  | [] => []
  | a :: l => if weightThreshold < w a then a :: filterPos w l
              else filterPos w l

open Classical in
/-- The real part of numpy average of the values with the given weights:
an error when the weights sum to zero (numpy raises ZeroDivisionError),
otherwise the weighted sum divided by the weight sum. -/
noncomputable def npAvgRe (es : List ℂ) (ws : List ℝ) :
    Except AFQMCError ℝ :=
  if ws.sum = 0 then .error .zeroWeightSum
  else .ok ((wsumC ws es / ((ws.sum : ℝ) : ℂ)).re)

/-- The classical-branch per-walker results of one time step: the external
classical step driver applied to every (index, walker, weight) triple of
the current population. -/
def cStepResults {Wk : Type} (cfg : AFQMCConfig Wk) (st : AFQMCState Wk)
    (t : ℕ) : List (ℂ × Wk × ℝ) :=
  (st.walkers.zip st.weights).enum.map fun p =>
    cfg.cDriver t p.1 st.E_shift p.2.1 p.2.2

/-- The checkpoint-branch per-walker results of one time step: the QAEE
step driver applied to every (index, walker, weight) triple of the current
population. -/
def qStepResults {Wk : Type} (cfg : AFQMCConfig Wk) (st : AFQMCState Wk)
    (t : ℕ) : List (ℂ × ℂ × ℂ × Wk × ℝ) :=
  (st.walkers.zip st.weights).enum.map fun p =>
    cfg.qDriver t p.1 st.E_shift p.2.1 p.2.2

open Classical in
/-- One iteration of the qAFQMC loop at step index t.  When the current
time rounded to 4 decimals is a configured checkpoint the QAEE driver is
dispatched, the checkpoint estimate is appended to the quantum trace and
the survivors are collected; otherwise the classical driver is
dispatched.  In both branches the step energy is the weighted average of
the per-walker classical energies under the pre-step weights; it is
appended to the classical trace and becomes the next energy shift, and
the surviving (walker, weight) pairs replace the population. -/
noncomputable def stepFn {Wk : Type} (cfg : AFQMCConfig Wk)
    (st : AFQMCState Wk) (t : ℕ) : Except AFQMCError (AFQMCState Wk) :=
  if roundTo 4 ((t : ℝ) * cfg.dtau) ∈ cfg.qTotalTime then
    let results := qStepResults cfg st t
    let survivors := filterPos (fun r => r.2.2.2.2) results
    let qE := qEnergyCheckpoint st.weights (results.map fun r => r.2.1)
      (results.map fun r => r.2.2.1)
    (npAvgRe (results.map fun r => r.1) st.weights).map fun E =>
      { cE := st.cE ++ [E]
        qE := st.qE ++ [qE]
        E_shift := E
        walkers := survivors.map fun r => r.2.2.2.1
        weights := survivors.map fun r => r.2.2.2.2 }
  else
    let results := cStepResults cfg st t
    let survivors := filterPos (fun r => r.2.2) results
    (npAvgRe (results.map fun r => r.1) st.weights).map fun E =>
      { cE := st.cE ++ [E]
        qE := st.qE
        E_shift := E
        walkers := survivors.map fun r => r.2.1
        weights := survivors.map fun r => r.2.2 }

/-- The qAFQMC loop over a list of step indices, aborting at the first
step error. -/
noncomputable def runSteps {Wk : Type} (cfg : AFQMCConfig Wk) :
    List ℕ → AFQMCState Wk → Except AFQMCError (AFQMCState Wk)
  | [], st => .ok st
  | t :: ts, st =>
    match stepFn cfg st t with
    | .error e => .error e
    | .ok st' => runSteps cfg ts st'

open Classical in
/-- Python int truncation toward zero. -/
noncomputable def pyInt (x : ℝ) : ℤ :=
  if 0 ≤ x then ⌊x⌋ else ⌈x⌉

/-- numpy linspace with num points from a to b. -/
noncomputable def linspace (a b : ℝ) (num : ℕ) : List ℝ :=
  (List.range num).map fun i => a + (b - a) * (i : ℝ) / ((num : ℝ) - 1)

/-- The time axis np.linspace(dtau, int(dtau * num_steps),
num = num_steps) returned by qAFQMC. -/
noncomputable def totalTime {Wk : Type} (cfg : AFQMCConfig Wk) : List ℝ :=
  linspace cfg.dtau ((pyInt (cfg.dtau * (cfg.num_steps : ℝ)) : ℤ) : ℝ)
    cfg.num_steps

/-- qAFQMC: starting from the initial population, run the loop body for
every step index from 0 through num_steps inclusive (the source loops
while t_step <= num_steps), then return the time axis and the two energy
traces. -/
noncomputable def qAFQMC {Wk : Type} (cfg : AFQMCConfig Wk) :
    Except AFQMCError (List ℝ × List ℝ × List ℝ) :=
  (runSteps cfg (List.range (cfg.num_steps + 1)) (initState cfg)).map
    fun st => (totalTime cfg, st.cE, st.qE)

theorem exceptMap_eq_ok {α β ε : Type} (f : α → β) (x : Except ε α) (b : β)
    (h : x.map f = .ok b) : ∃ a, x = .ok a ∧ b = f a := by
  cases x with
  | error e => simp [Except.map] at h
  | ok a =>
    refine ⟨a, rfl, ?_⟩
    simpa [Except.map] using h.symm

theorem filterPos_mem {α : Type} (w : α → ℝ) (l : List α) (a : α) :
    a ∈ filterPos w l ↔ a ∈ l ∧ weightThreshold < w a := by
  induction l with
  | nil => simp [filterPos]
  | cons b l ih =>
    simp only [filterPos]
    by_cases h : weightThreshold < w b
    · rw [if_pos h]
      simp only [List.mem_cons, ih]
      constructor
      · rintro (rfl | ⟨hm, hw⟩)
        · exact ⟨Or.inl rfl, h⟩
        · exact ⟨Or.inr hm, hw⟩
      · rintro ⟨rfl | hm, hw⟩
        · exact Or.inl rfl
        · exact Or.inr ⟨hm, hw⟩
    · rw [if_neg h]
      rw [ih]
      constructor
      · rintro ⟨hm, hw⟩
        exact ⟨List.mem_cons_of_mem b hm, hw⟩
      · rintro ⟨hbm, hw⟩
        rcases List.mem_cons.mp hbm with rfl | hm
        · exact absurd hw h
        · exact ⟨hm, hw⟩

theorem filterPos_length_le {α : Type} (w : α → ℝ) (l : List α) :
    (filterPos w l).length ≤ l.length := by
  induction l with
  | nil => simp [filterPos]
  | cons b l ih =>
    simp only [filterPos, List.length_cons]
    by_cases h : weightThreshold < w b
    · rw [if_pos h]
      simpa using Nat.succ_le_succ ih
    · rw [if_neg h]
      exact le_trans ih (Nat.le_succ _)

theorem filterPos_eq_nil {α : Type} (w : α → ℝ) (l : List α)
    (h : ∀ a ∈ l, ¬ weightThreshold < w a) : filterPos w l = [] := by
  induction l with
  | nil => rfl
  | cons b l ih =>
    simp only [filterPos]
    rw [if_neg (h b (List.mem_cons_self b l))]
    exact ih fun a ha => h a (List.mem_cons_of_mem b ha)

theorem npAvgRe_nil_weights (es : List ℂ) :
    npAvgRe es [] = .error .zeroWeightSum := by
  rw [npAvgRe]
  simp

theorem runSteps_nil {Wk : Type} (cfg : AFQMCConfig Wk)
    (st : AFQMCState Wk) : runSteps cfg [] st = .ok st := rfl

theorem runSteps_cons_ok {Wk : Type} (cfg : AFQMCConfig Wk)
    {st st' : AFQMCState Wk} {t : ℕ} {ts : List ℕ}
    (h : stepFn cfg st t = .ok st') :
    runSteps cfg (t :: ts) st = runSteps cfg ts st' := by
  have heq : runSteps cfg (t :: ts) st =
      match stepFn cfg st t with
      | .error e => .error e
      | .ok st2 => runSteps cfg ts st2 := rfl
  rw [heq, h]

theorem runSteps_cons_error {Wk : Type} (cfg : AFQMCConfig Wk)
    {st : AFQMCState Wk} {t : ℕ} {ts : List ℕ} {e : AFQMCError}
    (h : stepFn cfg st t = .error e) :
    runSteps cfg (t :: ts) st = .error e := by
  have heq : runSteps cfg (t :: ts) st =
      match stepFn cfg st t with
      | .error e => .error e
      | .ok st2 => runSteps cfg ts st2 := rfl
  rw [heq, h]

theorem stepFn_classical_ok {Wk : Type} (cfg : AFQMCConfig Wk)
    (st st' : AFQMCState Wk) (t : ℕ)
    (hmem : roundTo 4 ((t : ℝ) * cfg.dtau) ∉ cfg.qTotalTime)
    (hok : stepFn cfg st t = .ok st') :
    ∃ E, npAvgRe ((cStepResults cfg st t).map fun r => r.1) st.weights =
        .ok E ∧
      st' = { cE := st.cE ++ [E]
              qE := st.qE
              E_shift := E
              walkers := (filterPos (fun r => r.2.2)
                (cStepResults cfg st t)).map fun r => r.2.1
              weights := (filterPos (fun r => r.2.2)
                (cStepResults cfg st t)).map fun r => r.2.2 } := by
  simp only [stepFn] at hok
  rw [if_neg hmem] at hok
  obtain ⟨E, hE, hst⟩ := exceptMap_eq_ok _ _ _ hok
  exact ⟨E, hE, hst⟩

theorem stepFn_checkpoint_ok {Wk : Type} (cfg : AFQMCConfig Wk)
    (st st' : AFQMCState Wk) (t : ℕ)
    (hmem : roundTo 4 ((t : ℝ) * cfg.dtau) ∈ cfg.qTotalTime)
    (hok : stepFn cfg st t = .ok st') :
    ∃ E, npAvgRe ((qStepResults cfg st t).map fun r => r.1) st.weights =
        .ok E ∧
      st' = { cE := st.cE ++ [E]
              qE := st.qE ++ [qEnergyCheckpoint st.weights
                ((qStepResults cfg st t).map fun r => r.2.1)
                ((qStepResults cfg st t).map fun r => r.2.2.1)]
              E_shift := E
              walkers := (filterPos (fun r => r.2.2.2.2)
                (qStepResults cfg st t)).map fun r => r.2.2.2.1
              weights := (filterPos (fun r => r.2.2.2.2)
                (qStepResults cfg st t)).map fun r => r.2.2.2.2 } := by
  simp only [stepFn] at hok
  rw [if_pos hmem] at hok
  obtain ⟨E, hE, hst⟩ := exceptMap_eq_ok _ _ _ hok
  exact ⟨E, hE, hst⟩

theorem stepFn_empty_weights {Wk : Type} (cfg : AFQMCConfig Wk)
    (st : AFQMCState Wk) (t : ℕ) (hw : st.weights = []) :
    stepFn cfg st t = .error .zeroWeightSum := by
  simp only [stepFn]
  by_cases hmem : roundTo 4 ((t : ℝ) * cfg.dtau) ∈ cfg.qTotalTime
  · rw [if_pos hmem, hw, npAvgRe_nil_weights]
    rfl
  · rw [if_neg hmem, hw, npAvgRe_nil_weights]
    rfl

/-- Claim C2: whenever a step of qAFQMC succeeds, every pair of the next
population has weight strictly above 1E-16 (so any walker whose new weight
is at or below the threshold is absent), every result with weight above
the threshold is kept as its (walker, weight) pair, and the population
size never increases. -/
theorem C2_population_pruning {Wk : Type} (cfg : AFQMCConfig Wk)
    (st st' : AFQMCState Wk) (t : ℕ)
    (hok : stepFn cfg st t = .ok st') :
    (∀ p ∈ st'.walkers.zip st'.weights, weightThreshold < p.2) ∧
    (∀ (wk : Wk) (w : ℝ), w ≤ weightThreshold →
      (wk, w) ∉ st'.walkers.zip st'.weights) ∧
    st'.weights.length ≤ st.weights.length ∧
    (roundTo 4 ((t : ℝ) * cfg.dtau) ∉ cfg.qTotalTime →
      ∀ r ∈ cStepResults cfg st t, weightThreshold < r.2.2 →
        (r.2.1, r.2.2) ∈ st'.walkers.zip st'.weights) ∧
    (roundTo 4 ((t : ℝ) * cfg.dtau) ∈ cfg.qTotalTime →
      ∀ r ∈ qStepResults cfg st t, weightThreshold < r.2.2.2.2 →
        (r.2.2.2.1, r.2.2.2.2) ∈ st'.walkers.zip st'.weights) := by
  have hlenq : (qStepResults cfg st t).length ≤ st.weights.length := by
    rw [qStepResults, List.length_map, List.enum_length, List.length_zip]
    exact min_le_right _ _
  have hlenc : (cStepResults cfg st t).length ≤ st.weights.length := by
    rw [cStepResults, List.length_map, List.enum_length, List.length_zip]
    exact min_le_right _ _
  by_cases hmem : roundTo 4 ((t : ℝ) * cfg.dtau) ∈ cfg.qTotalTime
  · obtain ⟨E, hE, hst⟩ := stepFn_checkpoint_ok cfg st st' t hmem hok
    subst hst
    dsimp only
    rw [List.zip_map']
    refine ⟨?_, ?_, ?_, fun hne => absurd hmem hne, ?_⟩
    · intro p hp
      obtain ⟨r, hr, rfl⟩ := List.mem_map.mp hp
      exact ((filterPos_mem _ _ _).mp hr).2
    · intro wk w hw hin
      obtain ⟨r, hr, heq⟩ := List.mem_map.mp hin
      have hgt := ((filterPos_mem _ _ _).mp hr).2
      have hw2 : r.2.2.2.2 = w := congrArg Prod.snd heq
      rw [hw2] at hgt
      exact absurd hgt (not_lt.mpr hw)
    · rw [List.length_map]
      exact le_trans (filterPos_length_le _ _) hlenq
    · intro _ r hr hw
      exact List.mem_map_of_mem _ ((filterPos_mem _ _ _).mpr ⟨hr, hw⟩)
  · obtain ⟨E, hE, hst⟩ := stepFn_classical_ok cfg st st' t hmem hok
    subst hst
    dsimp only
    rw [List.zip_map']
    refine ⟨?_, ?_, ?_, ?_, fun hin => absurd hin hmem⟩
    · intro p hp
      obtain ⟨r, hr, rfl⟩ := List.mem_map.mp hp
      exact ((filterPos_mem _ _ _).mp hr).2
    · intro wk w hw hin
      obtain ⟨r, hr, heq⟩ := List.mem_map.mp hin
      have hgt := ((filterPos_mem _ _ _).mp hr).2
      have hw2 : r.2.2 = w := congrArg Prod.snd heq
      rw [hw2] at hgt
      exact absurd hgt (not_lt.mpr hw)
    · rw [List.length_map]
      exact le_trans (filterPos_length_le _ _) hlenc
    · intro _ r hr hw
      exact List.mem_map_of_mem _ ((filterPos_mem _ _ _).mpr ⟨hr, hw⟩)

/-- Claim C9: if every per-walker result of a successful step has new
weight at or below the threshold, the surviving population is empty; a
step started with an empty population aborts with the zero-weight-sum
error raised by the weighted average; and the remainder of the run
terminates with that error. -/
theorem C9_empty_population_aborts {Wk : Type} (cfg : AFQMCConfig Wk) :
    (∀ (st st' : AFQMCState Wk) (t : ℕ), stepFn cfg st t = .ok st' →
      ((roundTo 4 ((t : ℝ) * cfg.dtau) ∉ cfg.qTotalTime →
          (∀ r ∈ cStepResults cfg st t, r.2.2 ≤ weightThreshold) →
          st'.weights = []) ∧
       (roundTo 4 ((t : ℝ) * cfg.dtau) ∈ cfg.qTotalTime →
          (∀ r ∈ qStepResults cfg st t, r.2.2.2.2 ≤ weightThreshold) →
          st'.weights = []))) ∧
    (∀ (st : AFQMCState Wk) (t : ℕ), st.weights = [] →
      stepFn cfg st t = .error .zeroWeightSum) ∧
    (∀ (st : AFQMCState Wk) (t : ℕ) (ts : List ℕ), st.weights = [] →
      runSteps cfg (t :: ts) st = .error .zeroWeightSum) := by
  refine ⟨?_, fun st t hw => stepFn_empty_weights cfg st t hw, ?_⟩
  · intro st st' t hok
    constructor
    · intro hne hall
      obtain ⟨E, hE, hst⟩ := stepFn_classical_ok cfg st st' t hne hok
      subst hst
      dsimp only
      rw [filterPos_eq_nil _ _ fun a ha => not_lt.mpr (hall a ha)]
      rfl
    · intro hin hall
      obtain ⟨E, hE, hst⟩ := stepFn_checkpoint_ok cfg st st' t hin hok
      subst hst
      dsimp only
      rw [filterPos_eq_nil _ _ fun a ha => not_lt.mpr (hall a ha)]
      rfl
  · intro st t ts hw
    exact runSteps_cons_error cfg (stepFn_empty_weights cfg st t hw)

/-- Claim C10: qAFQMC initializes the population as num_walkers copies of
the trial state, each with weight one, and runs its loop from exactly that
initial state. -/
theorem C10_initial_population {Wk : Type} (cfg : AFQMCConfig Wk) :
    (initState cfg).walkers.length = cfg.num_walkers ∧
    (∀ wk ∈ (initState cfg).walkers, wk = cfg.trial) ∧
    (initState cfg).weights.length = cfg.num_walkers ∧
    (∀ w ∈ (initState cfg).weights, w = 1) ∧
    qAFQMC cfg = (runSteps cfg (List.range (cfg.num_steps + 1))
      (initState cfg)).map fun st => (totalTime cfg, st.cE, st.qE) := by
  refine ⟨?_, ?_, ?_, ?_, rfl⟩
  · exact List.length_replicate _ _
  · intro wk hwk
    exact List.eq_of_mem_replicate hwk
  · exact List.length_replicate _ _
  · intro w hw
    exact List.eq_of_mem_replicate hw

/-- A single-walker driver that returns local energy zero and keeps the
weight at one. -/
def cdKeep : ℕ → ℕ → ℝ → Unit → ℝ → ℂ × Unit × ℝ :=
  fun _ _ _ _ _ => (0, (), 1)

/-- A single-walker driver that returns local energy zero and drops the
weight to zero, killing the walker. -/
def cdKill : ℕ → ℕ → ℝ → Unit → ℝ → ℂ × Unit × ℝ :=
  fun _ _ _ _ _ => (0, (), 0)

/-- A concrete single-walker configuration with five steps, unit time
step, no quantum checkpoints and the given classical driver. -/
def constCfg (cd : ℕ → ℕ → ℝ → Unit → ℝ → ℂ × Unit × ℝ) :
    AFQMCConfig Unit :=
  { num_walkers := 1
    num_steps := 5
    dtau := 1
    qTotalTime := []
    Ehf := 0
    trial := ()
    cDriver := cd
    qDriver := fun _ _ _ _ _ => (0, 0, 0, (), 1) }

theorem stepFn_constCfg_eval (cd : ℕ → ℕ → ℝ → Unit → ℝ → ℂ × Unit × ℝ)
    (st : AFQMCState Unit) (t : ℕ) (e : ℂ) (w' : ℝ)
    (hst : st.walkers = [()]) (hstw : st.weights = [1])
    (hcd : cd t 0 st.E_shift () 1 = (e, (), w')) :
    stepFn (constCfg cd) st t = .ok
      { cE := st.cE ++ [e.re]
        qE := st.qE
        E_shift := e.re
        walkers := (filterPos (fun r => r.2.2) [(e, (), w')]).map
          fun r => r.2.1
        weights := (filterPos (fun r => r.2.2) [(e, (), w')]).map
          fun r => r.2.2 } := by
  have hmem : roundTo 4 ((t : ℝ) * (constCfg cd).dtau) ∉
      (constCfg cd).qTotalTime := fun h => List.not_mem_nil _ h
  have hres : cStepResults (constCfg cd) st t = [(e, (), w')] := by
    rw [cStepResults, hst, hstw]
    have h1 : ((([()].zip [(1 : ℝ)]).enum).map fun p =>
        (constCfg cd).cDriver t p.1 st.E_shift p.2.1 p.2.2) =
        [cd t 0 st.E_shift () 1] := rfl
    rw [h1, hcd]
  have havg : npAvgRe ([((e : ℂ), ((), w'))].map fun r => r.1) [(1 : ℝ)] =
      .ok e.re := by
    simp [npAvgRe, wsumC]
  simp only [stepFn]
  rw [if_neg hmem, hres, hstw, havg]
  rfl

theorem stepFn_cdKeep (st : AFQMCState Unit) (t : ℕ)
    (hst : st.walkers = [()]) (hstw : st.weights = [1]) :
    stepFn (constCfg cdKeep) st t = .ok
      { cE := st.cE ++ [0]
        qE := st.qE
        E_shift := 0
        walkers := [()]
        weights := [1] } := by
  have h := stepFn_constCfg_eval cdKeep st t 0 1 hst hstw rfl
  have hf : filterPos (fun r => r.2.2) [((0 : ℂ), ((), (1 : ℝ)))] =
      [((0 : ℂ), ((), (1 : ℝ)))] := by
    simp only [filterPos]
    rw [if_pos (by norm_num [weightThreshold])]
  rw [h, hf]
  simp

theorem stepFn_cdKill_init :
    stepFn (constCfg cdKill) (initState (constCfg cdKill)) 0 = .ok
      { cE := [0], qE := [], E_shift := 0, walkers := [], weights := [] } := by
  have h := stepFn_constCfg_eval cdKill (initState (constCfg cdKill)) 0 0 0
    rfl rfl rfl
  have hf : filterPos (fun r => r.2.2) [((0 : ℂ), ((), (0 : ℝ)))] = [] := by
    simp only [filterPos]
    rw [if_neg (by norm_num [weightThreshold])]
  rw [h, hf]
  simp [initState]

theorem constCfg_keep_run :
    runSteps (constCfg cdKeep)
        (List.range ((constCfg cdKeep).num_steps + 1))
        (initState (constCfg cdKeep)) =
      .ok { cE := [0, 0, 0, 0, 0, 0], qE := [], E_shift := 0,
            walkers := [()], weights := [1] } := by
  have hr : List.range ((constCfg cdKeep).num_steps + 1) =
      [0, 1, 2, 3, 4, 5] := by decide
  rw [hr]
  rw [runSteps_cons_ok _ (stepFn_cdKeep (initState (constCfg cdKeep)) 0
    rfl rfl)]
  rw [runSteps_cons_ok _ (stepFn_cdKeep _ 1 rfl rfl)]
  rw [runSteps_cons_ok _ (stepFn_cdKeep _ 2 rfl rfl)]
  rw [runSteps_cons_ok _ (stepFn_cdKeep _ 3 rfl rfl)]
  rw [runSteps_cons_ok _ (stepFn_cdKeep _ 4 rfl rfl)]
  rw [runSteps_cons_ok _ (stepFn_cdKeep _ 5 rfl rfl)]
  rfl

theorem constCfg_keep_qAFQMC :
    qAFQMC (constCfg cdKeep) =
      .ok (totalTime (constCfg cdKeep), [0, 0, 0, 0, 0, 0],
        ([] : List ℝ)) := by
  rw [qAFQMC, constCfg_keep_run]
  rfl

theorem runSteps_no_checkpoint {Wk : Type} (cfg : AFQMCConfig Wk)
    (hq : cfg.qTotalTime = []) :
    ∀ (ts : List ℕ) (st st' : AFQMCState Wk),
      runSteps cfg ts st = .ok st' →
      st'.cE.length = st.cE.length + ts.length ∧ st'.qE = st.qE := by
  intro ts
  induction ts with
  | nil =>
    intro st st' h
    rw [runSteps_nil] at h
    obtain rfl := Except.ok.inj h
    simp
  | cons t ts ih =>
    intro st st' h
    have hmem : roundTo 4 ((t : ℝ) * cfg.dtau) ∉ cfg.qTotalTime := by
      rw [hq]
      exact List.not_mem_nil _
    cases hs : stepFn cfg st t with
    | error e =>
      rw [runSteps_cons_error cfg hs] at h
      exact absurd h (by simp)
    | ok st1 =>
      rw [runSteps_cons_ok cfg hs] at h
      obtain ⟨E, hE, hst1⟩ := stepFn_classical_ok cfg st st1 t hmem hs
      have h2 := ih st1 st' h
      subst hst1
      dsimp only at h2
      constructor
      · rw [h2.1, List.length_append]
        simp only [List.length_cons, List.length_nil]
        omega
      · exact h2.2

/-- Claim C5, amended: a run of qAFQMC with num_steps five and no quantum
checkpoints that returns successfully produces a classical energy trace of
length six, one entry for each loop iteration at t_step zero through
num_steps inclusive, and an empty quantum energy trace. -/
theorem C5_trace_lengths {Wk : Type} (cfg : AFQMCConfig Wk)
    (h5 : cfg.num_steps = 5) (hq : cfg.qTotalTime = [])
    (tt cE qE : List ℝ) (hok : qAFQMC cfg = .ok (tt, cE, qE)) :
    cE.length = 6 ∧ qE = [] := by
  rw [qAFQMC] at hok
  obtain ⟨stf, hrun, hval⟩ := exceptMap_eq_ok _ _ _ hok
  have h := runSteps_no_checkpoint cfg hq _ _ _ hrun
  have hcE : cE = stf.cE := congrArg (fun p => p.2.1) hval
  have hqE : qE = stf.qE := congrArg (fun p => p.2.2) hval
  rw [hcE, hqE]
  constructor
  · rw [h.1]
    simp [initState, h5]
  · rw [h.2]
    rfl

/-- Claim C5 counterexample: a concrete successful run with num_steps five
and no checkpoints returns a classical trace of length six, not five: the
loop body executes once for every t_step from zero through num_steps
inclusive. -/
theorem C5_trace_length_counterexample :
    (qAFQMC (constCfg cdKeep)).map (fun r => (r.2.1.length, r.2.2)) =
      .ok (6, ([] : List ℝ)) ∧
    (qAFQMC (constCfg cdKeep)).map (fun r => r.2.1.length) ≠ .ok 5 := by
  rw [constCfg_keep_qAFQMC]
  constructor
  · rfl
  · intro h
    simp [Except.map] at h

theorem C5_trace_lengths_witness :
    (constCfg cdKeep).num_steps = 5 ∧ (constCfg cdKeep).qTotalTime = [] ∧
    qAFQMC (constCfg cdKeep) =
      .ok (totalTime (constCfg cdKeep), [0, 0, 0, 0, 0, 0],
        ([] : List ℝ)) ∧
    (([0, 0, 0, 0, 0, 0] : List ℝ).length = 6 ∧ ([] : List ℝ) = []) := by
  refine ⟨rfl, rfl, constCfg_keep_qAFQMC, ?_⟩
  exact C5_trace_lengths (constCfg cdKeep) rfl rfl _ _ _
    constCfg_keep_qAFQMC

theorem C2_population_pruning_witness :
    stepFn (constCfg cdKill) (initState (constCfg cdKill)) 0 = .ok
      { cE := [0], qE := [], E_shift := 0, walkers := [], weights := [] } ∧
    ({ cE := [0], qE := [], E_shift := 0, walkers := [], weights := [] } :
        AFQMCState Unit).weights.length ≤
      (initState (constCfg cdKill)).weights.length := by
  refine ⟨stepFn_cdKill_init, ?_⟩
  exact (C2_population_pruning (constCfg cdKill) _ _ 0
    stepFn_cdKill_init).2.2.1

theorem C9_empty_population_aborts_witness :
    ({ cE := [0], qE := [], E_shift := 0, walkers := [], weights := [] } :
        AFQMCState Unit).weights = [] ∧
    stepFn (constCfg cdKill)
      { cE := [0], qE := [], E_shift := 0, walkers := [], weights := [] }
      1 = .error .zeroWeightSum ∧
    runSteps (constCfg cdKill) [1]
      { cE := [0], qE := [], E_shift := 0, walkers := [], weights := [] } =
      .error .zeroWeightSum := by
  have hall : ∀ r ∈ cStepResults (constCfg cdKill)
      (initState (constCfg cdKill)) 0, r.2.2 ≤ weightThreshold := by
    intro r hr
    have hres : cStepResults (constCfg cdKill)
        (initState (constCfg cdKill)) 0 = [((0 : ℂ), ((), (0 : ℝ)))] := rfl
    rw [hres] at hr
    obtain rfl := List.mem_singleton.mp hr
    norm_num [weightThreshold]
  refine ⟨?_, ?_, ?_⟩
  · exact ((C9_empty_population_aborts (constCfg cdKill)).1 _ _ 0
      stepFn_cdKill_init).1 (fun h => List.not_mem_nil _ h) hall
  · exact (C9_empty_population_aborts (constCfg cdKill)).2.1 _ 1 rfl
  · exact (C9_empty_population_aborts (constCfg cdKill)).2.2 _ 1 [] rfl

theorem C10_initial_population_witness :
    (initState (constCfg cdKeep)).walkers.length =
      (constCfg cdKeep).num_walkers ∧
    (initState (constCfg cdKeep)).weights.length =
      (constCfg cdKeep).num_walkers :=
  ⟨(C10_initial_population (constCfg cdKeep)).1,
   (C10_initial_population (constCfg cdKeep)).2.2.1⟩

end AFQMC
